import Mathlib

/-!
Shallow embedding of the archive-building core of this repository
(src/zipper.go and the sequential variant in src/main.go), together with
theorems settling the frozen claims about it.

Conventions of the embedding:
* File payloads are lists of byte values (`List Nat`); timestamps are `Int`
  (Go `time.Time{}`, the zero time, is modelled as `0`).
* Fallible environment operations (lstat during the walk, ReadDir on a
  directory, `zipWriter.CreateHeader`, `os.Open`, `io.Copy`) are modelled by
  Boolean outcome flags carried on each file/directory node: the flag records
  whether that operation succeeds for that node in the run being modelled.
* The third-party glob matcher (`doublestar.PathMatch`) is not code of this
  repository; it is modelled as an abstract function parameter returning a
  match flag together with an optional error, exactly the pair the call site
  receives (and whose error component the call site discards).
-/

namespace Zipper

/-- Per-file metadata and environment outcomes: the payload bytes, the real
filesystem modification time, and whether lstat (during `filepath.Walk`),
`zipWriter.CreateHeader`, `os.Open` and `io.Copy` succeed for this file in the
modelled run. -/
structure FileMeta where
  content : List Nat
  modTime : Int
  statOk : Bool
  createOk : Bool
  openOk : Bool
  copyOk : Bool
deriving Repr, DecidableEq

/-- A node of the source tree: a regular file, or a directory with children and
a flag telling whether reading the directory (ReadDir inside `filepath.Walk`)
succeeds. -/
inductive FSNode where
  | file (name : String) (meta : FileMeta)
  | dir (name : String) (children : List FSNode) (readOk : Bool)
deriving Repr

/-- Name of a node (its base name on disk). -/
def FSNode.name : FSNode → String
  | .file n _ => n
  | .dir n _ _ => n

/-- The `fileJob` struct of src/zipper.go (lines 44-48): the slash-normalized
relative path plus the file metadata (`fullPath`/`info` are subsumed by
`meta`). -/
structure fileJob where
  relPath : String
  meta : FileMeta
deriving Repr, DecidableEq

/-- Result of one `doublestar.PathMatch(pattern, rel)` call: the match flag and
the error value of the call (`none` = nil error). -/
structure MatchResult where
  matched : Bool
  errMsg : Option String
deriving Repr, DecidableEq

/-- An abstract glob matcher: pattern → relative path → result pair. -/
abbrev GlobMatch := String → String → MatchResult

/-- Byte-wise (here: character-wise) lexicographic comparison on strings as
lists of characters, the order `sort.Strings` uses inside `filepath.Walk`'s
`readDirNames`. -/
def charsLe : List Char → List Char → Bool
  | [], _ => true
  | _ :: _, [] => false
  | a :: as, b :: bs => if a = b then charsLe as bs else decide (a < b)

/-- Lexicographic order on strings (Go's byte order; identical to code-point
order on UTF-8). -/
def strLe (a b : String) : Bool := charsLe a.data b.data

/-- Relative path of a child named `name` below the relative path `pfx` of its
parent, using forward slashes (`filepath.Rel` followed by `filepath.ToSlash` at
src/zipper.go lines 147-148). -/
def childRel (pfx name : String) : String :=
  if pfx = "" then name else pfx ++ "/" ++ name

/-- Insertion step of sorting a list by a string key. -/
def insertByKey {α : Type} (key : α → String) (x : α) : List α → List α
  | [] => [x]
  | y :: ys => if strLe (key x) (key y) then x :: y :: ys else y :: insertByKey key x ys

/-- Insertion sort of a list by a string key, the sorted order in which
`filepath.Walk` visits the entries of one directory. -/
def sortByKey {α : Type} (key : α → String) : List α → List α
  | [] => []
  | x :: xs => insertByKey key x (sortByKey key xs)

/-- Sort name-tagged per-child walk results by child name. -/
def sortPairs : List (String × List fileJob) → List (String × List fileJob) :=
  sortByKey Prod.fst

/-- Concatenate the per-child result lists, in order. -/
def concatSnd : List (String × List fileJob) → List fileJob
  | [] => []
  | p :: ps => p.2 ++ concatSnd ps

mutual
/-- Files collected below one node by `filepath.Walk` with the callback of
src/zipper.go lines 143-158, given the relative path `pfx` of the node's
parent. A file whose lstat failed is skipped silently (the callback returns
nil on any error); a file whose relative path matches some exclusion pattern
(error component of the match discarded, line 151) is dropped; an unreadable
directory is pruned silently. Children of a directory are visited in ascending
name order, as `filepath.Walk` guarantees. -/
def walkCollect (m : GlobMatch) (globs : List String) :
    FSNode → String → List fileJob
  | .file name meta, pfx =>
      if meta.statOk then
        let rel := childRel pfx name
        if globs.any (fun p => (m p rel).matched) then []
        else [{ relPath := rel, meta := meta }]
      else []
  | .dir name cs readOk, pfx =>
      if readOk then
        concatSnd (sortPairs (walkChildren m globs cs (childRel pfx name)))
      else []

/-- Walk results of a directory's children (each tagged with its name), the
children's relative paths extending `pfx`. -/
def walkChildren (m : GlobMatch) (globs : List String) :
    List FSNode → String → List (String × List fileJob)
  | [], _ => []
  | c :: cs, pfx =>
      (c.name, walkCollect m globs c pfx) :: walkChildren m globs cs pfx
end

/-- The directory-mode enumeration of src/zipper.go lines 142-158: the
`fileList` built by `filepath.Walk` over the source root. The root directory
itself never becomes a descriptor (the callback skips directories) and its
name is not part of the relative paths. -/
def enumerate (m : GlobMatch) (globs : List String) (root : FSNode) :
    List fileJob :=
  match root with
  | .file _ _ => []
  | .dir _ cs readOk =>
      if readOk then concatSnd (sortPairs (walkChildren m globs cs "")) else []

/-- A matcher that matches nothing and never errs. -/
def noMatch : GlobMatch := fun _ _ => { matched := false, errMsg := none }

/-! ### Archive entry headers and compression selection -/

/-- The fields of a `zip.FileHeader` that the claims are about. Compression
methods are the zip constants: Store = 0, Deflate = 8. -/
structure ZipHeader where
  name : String
  method : Nat
  modified : Int
deriving Repr, DecidableEq

/-- The zip Store method constant. -/
def storeMethod : Nat := 0

/-- The zip Deflate method constant. -/
def deflateMethod : Nat := 8

/-- The fixed sentinel timestamp `time.Time{}` (Go's zero time). -/
def zeroTime : Int := 0

/-- ASCII lowering of one character, the effect of `strings.ToLower` on the
characters relevant to the -level flag comparison. -/
def lowerChar (c : Char) : Char :=
  if 'A' ≤ c ∧ c ≤ 'Z' then Char.ofNat (c.toNat + 32) else c

/-- Model of `strings.ToLower` on the compression-flag string. -/
def goToLower (s : String) : String := ⟨s.data.map lowerChar⟩

/-- Compression-method selection of src/zipper.go lines 131-134: Deflate
unless the lowered -level flag equals "store". -/
def chooseMethod (compression : String) : Nat :=
  if goToLower compression = "store" then storeMethod else deflateMethod

/-- Header built by a pool worker for one descriptor (src/zipper.go lines
174-177): `zip.FileInfoHeader` copies the file's real modification time into
`Modified`, then the worker overwrites `Name` with the relative path, `Method`
with the build-wide level, and `Modified` with the zero time. -/
def workerEntryHeader (job : fileJob) (level : Nat) : ZipHeader :=
  let fromInfo : ZipHeader :=
    { name := job.relPath, method := storeMethod, modified := job.meta.modTime }
  { fromInfo with name := job.relPath, method := level, modified := zeroTime }

/-- Backslash-to-slash normalization (`filepath.ToSlash`). -/
def toSlash (s : String) : String :=
  ⟨s.data.map (fun c => if c = '\\' then '/' else c)⟩

/-- Header built by `addFileToZip` (src/zipper.go lines 211-215), the
single-file path: same overwrites, with the name slash-normalized. -/
def addFileHeader (rel : String) (meta : FileMeta) (level : Nat) : ZipHeader :=
  let fromInfo : ZipHeader :=
    { name := rel, method := storeMethod, modified := meta.modTime }
  { fromInfo with name := toSlash rel, method := level, modified := zeroTime }

/-! ### Worker pool -/

/-- Outcome of the per-job closure in the worker body (src/zipper.go lines
173-194): `entryName` is `some` exactly when `zipWriter.CreateHeader`
succeeded — from that point on the archive's entry table contains the entry
under that name, whether or not the payload copy succeeds — and `failed`
records whether the closure returned a non-nil error (create, open or copy
failure), which the worker then reports on stderr (line 196). -/
structure JobResult where
  entryName : Option String
  failed : Bool
deriving Repr, DecidableEq

/-- Per-job processing of the worker body. -/
def processJob (j : fileJob) : JobResult :=
  if !j.meta.createOk then { entryName := none, failed := true }
  else if !j.meta.openOk then { entryName := some j.relPath, failed := true }
  else if !j.meta.copyOk then { entryName := some j.relPath, failed := true }
  else { entryName := some j.relPath, failed := false }

/-- Whether a descriptor's processing fails (the closure returns a non-nil
error). -/
def jobFails (j : fileJob) : Bool :=
  !(j.meta.createOk && j.meta.openOk && j.meta.copyOk)

/-- Observable outcome of draining the pool: the entry names present in the
finished archive's table (central directory), the relative paths whose
failure was reported on stderr, and the number of `bar.Add(1)` progress
increments. -/
structure PoolRun where
  archiveNames : List String
  reportedFailures : List String
  progressed : Nat
deriving Repr, DecidableEq

/-- Pool outcome over the dispatched descriptors, in dispatch order
(src/zipper.go lines 163-207). Every descriptor is processed exactly once;
a failure is reported and the loop moves on; the progress bar is bumped on
every descriptor, failed or not. -/
def runPool : List fileJob → PoolRun
  | [] => { archiveNames := [], reportedFailures := [], progressed := 0 }
  | j :: rest =>
      let r := processJob j
      let tail := runPool rest
      { archiveNames := (match r.entryName with
          | some n => [n]
          | none => []) ++ tail.archiveNames
        reportedFailures :=
          (if r.failed then [j.relPath] else []) ++ tail.reportedFailures
        progressed := tail.progressed + 1 }

/-! ### Error plumbing of the two walk variants -/

/-- First error among the name-tagged per-child walk errors, children taken in
ascending name order like `filepath.Walk` visits them. -/
def firstErrPair : List (String × Option String) → Option String
  | [] => none
  | (_, some e) :: _ => some e
  | (_, none) :: ps => firstErrPair ps

/-- Sort name-tagged child errors by child name. -/
def sortErrPairs : List (String × Option String) → List (String × Option String) :=
  sortByKey Prod.fst

mutual
/-- The error `filepath.Walk` returns below one node with the callback of
src/zipper.go lines 143-158. The callback returns nil on every invocation
(`if err != nil || fi.IsDir() { return nil }` and all later paths), so: a
file's lstat error yields callback-nil; a directory's ReadDir error makes the
walk return the callback's value for that directory, which is nil; child
errors propagate, but every child's error is itself nil. -/
def walkErrZ : FSNode → Option String
  | .file _ _ => none
  | .dir _ cs readOk =>
      if readOk then firstErrPair (sortErrPairs (walkErrZChildren cs))
      else none

/-- Name-tagged walk errors of a directory's children under the zipper.go
callback. -/
def walkErrZChildren : List FSNode → List (String × Option String)
  | [] => []
  | c :: cs => (c.name, walkErrZ c) :: walkErrZChildren cs
end

mutual
/-- The error `filepath.Walk` returns below one node with the callback of
src/main.go lines 140-156 (`zipFolder`): the callback returns the walk error
(`if err != nil || info.IsDir() { return err }`), and for a regular file it
creates the entry, opens and copies the file, returning the first failure —
so any lstat, ReadDir, create, open or copy failure aborts the walk with that
error. -/
def zipFolderErr : FSNode → Option String
  | .file _ meta =>
      if !meta.statOk then some "lstat failed"
      else if !meta.createOk then some "create entry failed"
      else if !meta.openOk then some "open failed"
      else if !meta.copyOk then some "copy failed"
      else none
  | .dir _ cs readOk =>
      if !readOk then some "readdir failed"
      else firstErrPair (sortErrPairs (zipFolderErrChildren cs))

/-- Name-tagged walk errors of a directory's children under the zipFolder
callback. -/
def zipFolderErrChildren : List FSNode → List (String × Option String)
  | [] => []
  | c :: cs => (c.name, zipFolderErr c) :: zipFolderErrChildren cs
end

mutual
/-- Whether some node of the tree is bad: an lstat/create/open/copy failure on
a file, or an unreadable directory. -/
def hasBad : FSNode → Bool
  | .file _ meta => !(meta.statOk && meta.createOk && meta.openOk && meta.copyOk)
  | .dir _ cs readOk => !readOk || hasBadForest cs

/-- Whether some node of a forest is bad. -/
def hasBadForest : List FSNode → Bool
  | [] => false
  | c :: cs => hasBad c || hasBadForest cs
end

/-! ### Build orchestration (`zipFileOrDir`) -/

/-- Caller-visible outcome of one `zipFileOrDir` call: whether the archive was
finalized (the deferred `zipWriter.Close()` ran, writing the central
directory), and the error value the function returns. The Go signature
`func zipFileOrDir(source, output string, info os.FileInfo) error` returns
nothing else: no failed-file list and no entry count. -/
structure BuildOutcome where
  finalized : Bool
  retErr : Option String
deriving Repr, DecidableEq

/-- Single-file mode (src/zipper.go lines 122-138): if creating the output
file fails the function returns before a zip writer exists; otherwise
`defer zipWriter.Close()` is armed, so the archive is finalized on every
return path, including an error return from `addFileToZip`. -/
def zipSingleFile (outOk : Bool) (meta : FileMeta) : BuildOutcome :=
  if !outOk then { finalized := false, retErr := some "create output failed" }
  else
    { finalized := true
      retErr :=
        if !meta.createOk then some "create entry failed"
        else if !meta.openOk then some "open failed"
        else if !meta.copyOk then some "copy failed"
        else none }

/-- Directory mode (src/zipper.go lines 122-208): after the output file is
created, `defer zipWriter.Close()` is armed; the walk error (always nil with
this callback) would be returned at line 160; the pool then drains the
descriptors and the function returns nil. -/
def zipDirectory (outOk : Bool) (m : GlobMatch) (globs : List String)
    (root : FSNode) : BuildOutcome × PoolRun :=
  if !outOk then
    ({ finalized := false, retErr := some "create output failed" },
     { archiveNames := [], reportedFailures := [], progressed := 0 })
  else
    match walkErrZ root with
    | some e =>
        ({ finalized := true, retErr := some e },
         { archiveNames := [], reportedFailures := [], progressed := 0 })
    | none =>
        ({ finalized := true, retErr := none },
         runPool (enumerate m globs root))

/-! ### Configuration checks before any archive I/O -/

/-- The build configuration as main assembles it from the flags. -/
structure Config where
  srcEmpty : Bool
  statOk : Bool
  patterns : List String
  workerCount : Int
deriving Repr, DecidableEq

/-- The only pre-I/O validation main performs (src/zipper.go lines 66-75):
abort when -src is empty or `os.Stat(sourcePath)` fails. Exclusion patterns
and the worker count are never validated. -/
def configAborts (c : Config) : Bool := c.srcEmpty || !c.statOk

/-! ### Interleaving model of the worker critical section -/

/-- One write-side event of a worker, tagged with the index of the entry it
belongs to: the `zipWriter.CreateHeader` call (performed while holding the
mutex, src/zipper.go lines 179-181) or the `io.Copy` of the payload into the
entry writer (performed after the mutex is released, line 192). -/
inductive WEvent where
  | header (entry : Nat)
  | payload (entry : Nat)
deriving Repr, DecidableEq

/-- Event sequence a worker emits for the entries it claims, in program
order: for each entry, the locked header creation, then the unlocked payload
copy. Since the mutex guards only the single header event — an atomic action
in this model — mutual exclusion removes no interleaving of two workers'
sequences: every shuffle of their program orders is a reachable schedule. -/
def workerSeq : List Nat → List WEvent
  | [] => []
  | e :: es => WEvent.header e :: WEvent.payload e :: workerSeq es

/-- Whether `zs` is an interleaving (shuffle) of `xs` and `ys`, each kept in
its own order: the set of schedules two concurrent workers can produce. -/
def isShuffle : List WEvent → List WEvent → List WEvent → Bool
  | [], [], [] => true
  | [], [], _ :: _ => false
  | _ :: _, _, [] => false
  | [], _ :: _, [] => false
  | [], y :: ys, z :: zs => y = z && isShuffle [] ys zs
  | x :: xs, [], z :: zs => x = z && isShuffle xs [] zs
  | x :: xs, y :: ys, z :: zs =>
      (x = z && isShuffle xs (y :: ys) zs) ||
      (y = z && isShuffle (x :: xs) ys zs)

/-- Whether a schedule writes each entry's header and payload as one
uninterrupted critical section: the trace is a sequence of
header-then-payload blocks, one block per entry, with no event of another
entry in between. -/
def serializedPerEntry : List WEvent → Bool
  | [] => true
  | .header i :: .payload j :: rest => i = j && serializedPerEntry rest
  | _ => false

/-! ### Tree normalization: the tree up to on-disk child order -/

/-- Sort a forest by node name. -/
def sortForest : List FSNode → List FSNode :=
  sortByKey FSNode.name

mutual
/-- Canonical form of a tree: every directory's children sorted by name. Two
trees that differ only in the order in which the filesystem happens to list
directory entries have the same normalization. -/
def normalize : FSNode → FSNode
  | .file n m => .file n m
  | .dir n cs r => .dir n (sortForest (normalizeForest cs)) r

/-- Normalize every tree of a forest. -/
def normalizeForest : List FSNode → List FSNode
  | [] => []
  | c :: cs => normalize c :: normalizeForest cs
end

/-- Names of the nodes of a forest, in order. -/
def namesOf : List FSNode → List String
  | [] => []
  | c :: cs => c.name :: namesOf cs

/-- Whether a list of strings has no duplicates. -/
def nodupStr : List String → Bool
  | [] => true
  | s :: ss => !ss.contains s && nodupStr ss

mutual
/-- Whether every directory of the tree has pairwise-distinct child names, as
a real filesystem directory always does. -/
def nodupNamesT : FSNode → Bool
  | .file _ _ => true
  | .dir _ cs _ => nodupStr (namesOf cs) && nodupForest cs

/-- Forest version of `nodupNamesT`. -/
def nodupForest : List FSNode → Bool
  | [] => true
  | c :: cs => nodupNamesT c && nodupForest cs
end

/-- Whether a list of relative paths is in ascending lexicographic order. -/
def sortedByRel : List String → Bool
  | [] => true
  | [_] => true
  | a :: b :: rest => strLe a b && sortedByRel (b :: rest)

/-! ### Concrete data used by counterexamples and witnesses -/

/-- A file for which every environment operation succeeds. -/
def okMeta : FileMeta :=
  { content := [104, 105], modTime := 7, statOk := true, createOk := true,
    openOk := true, copyOk := true }

/-- A file whose `os.Open` fails (a read error) while header creation
succeeds. -/
def badOpenMeta : FileMeta := { okMeta with openOk := false }

/-- Two-file tree whose walk order differs from the ascending order of
relative paths: `filepath.Walk` visits the directory `foo` (hence `foo/x`)
before the file `foo-bar`, while `"foo-bar" < "foo/x"` lexicographically
(`'-'` sorts before `'/'`). -/
def c5tree : FSNode :=
  .dir "src" [.dir "foo" [.file "x" okMeta] true, .file "foo-bar" okMeta] true

/-- Tree whose only file sits inside an unreadable directory. -/
def c6tree : FSNode :=
  .dir "root" [.dir "sub" [.file "f" okMeta] false] true

/-- Two-file tree in which `a.txt` fails at `os.Open` after its header was
created and `b.txt` succeeds. -/
def c3tree : FSNode :=
  .dir "s" [.file "a.txt" badOpenMeta, .file "b.txt" okMeta] true

/-- One-file tree used by the configuration counterexample. -/
def c7tree : FSNode := .dir "s" [.file "a.txt" okMeta] true

/-- A matcher that never matches but errs on every call, the behavior
`doublestar.PathMatch` exhibits on a malformed pattern; the call site
discards the error. -/
def erroringMatch : GlobMatch :=
  fun _ _ => { matched := false, errMsg := some "syntax error in pattern" }

/-- A matcher that matches exactly the relative path equal to the pattern. -/
def eqMatch : GlobMatch :=
  fun p rel => { matched := p == rel, errMsg := none }

/-- Tree with a keeper file and a file that the exclusion pattern drops. -/
def c9tree : FSNode :=
  .dir "s" [.file "a.txt" okMeta, .file "b.log" okMeta] true

/-- Two one-file trees that differ only in the order in which the root's
children are listed. -/
def c5treeA : FSNode :=
  .dir "s" [.file "b" okMeta, .file "a" okMeta] true

/-- Same children as `c5treeA`, listed in the other order. -/
def c5treeB : FSNode :=
  .dir "s" [.file "a" okMeta, .file "b" okMeta] true

/-- Configuration with a well-formed source path, a malformed exclusion
pattern, and a worker count below 1. -/
def c7config : Config :=
  { srcEmpty := false, statOk := true, patterns := ["["], workerCount := 0 }

/-! ### Helper lemmas -/

/-- Induction over trees giving the hypothesis for every child of a
directory. -/
theorem FSNode.sizedInd (P : FSNode → Prop)
    (hf : ∀ n m, P (.file n m))
    (hd : ∀ n cs r, (∀ c ∈ cs, P c) → P (.dir n cs r)) : ∀ t, P t := by
  have key : ∀ k, ∀ t : FSNode, sizeOf t ≤ k → P t := by
    intro k
    induction k with
    | zero =>
        intro t ht
        cases t <;> simp_all
    | succ k ih =>
        intro t ht
        cases t with
        | file n m => exact hf n m
        | dir n cs r =>
            apply hd
            intro c hc
            apply ih
            have h1 : sizeOf c < sizeOf cs := List.sizeOf_lt_of_mem hc
            have h2 : sizeOf cs < sizeOf (FSNode.dir n cs r) := by
              simp only [FSNode.dir.sizeOf_spec]
              omega
            omega
  intro t
  exact key (sizeOf t) t (le_refl _)

theorem charsLe_total (a b : List Char) : charsLe a b = true ∨ charsLe b a = true := by
  induction a generalizing b with
  | nil => left; rfl
  | cons x xs ih =>
      cases b with
      | nil => right; rfl
      | cons y ys =>
          by_cases hxy : x = y
          · subst hxy
            simpa [charsLe] using ih ys
          · rcases lt_trichotomy x y with h | h | h
            · left; simp [charsLe, hxy, h]
            · exact absurd h hxy
            · right
              have hyx : y ≠ x := fun hh => hxy hh.symm
              simp [charsLe, hyx, h]

theorem charsLe_antisymm (a b : List Char) (hab : charsLe a b = true)
    (hba : charsLe b a = true) : a = b := by
  induction a generalizing b with
  | nil =>
      cases b with
      | nil => rfl
      | cons y ys => simp [charsLe] at hba
  | cons x xs ih =>
      cases b with
      | nil => simp [charsLe] at hab
      | cons y ys =>
          by_cases hxy : x = y
          · subst hxy
            simp only [charsLe, if_pos rfl] at hab hba
            rw [ih ys hab hba]
          · have hyx : y ≠ x := fun hh => hxy hh.symm
            simp only [charsLe, if_neg hxy, decide_eq_true_eq] at hab
            simp only [charsLe, if_neg hyx, decide_eq_true_eq] at hba
            exact absurd hba (not_lt_of_lt hab)

theorem charsLe_trans (a b c : List Char) (hab : charsLe a b = true)
    (hbc : charsLe b c = true) : charsLe a c = true := by
  induction a generalizing b c with
  | nil => rfl
  | cons x xs ih =>
      cases b with
      | nil => simp [charsLe] at hab
      | cons y ys =>
          cases c with
          | nil => simp [charsLe] at hbc
          | cons z zs =>
              by_cases hxy : x = y <;> by_cases hyz : y = z
              · subst hxy; subst hyz
                simp only [charsLe, if_pos rfl] at hab hbc ⊢
                exact ih ys zs hab hbc
              · subst hxy
                simp only [charsLe, if_neg hyz] at hbc
                simp only [charsLe, if_neg hyz]
                exact hbc
              · subst hyz
                simp only [charsLe, if_neg hxy] at hab
                simp only [charsLe, if_neg hxy]
                exact hab
              · simp only [charsLe, if_neg hxy, decide_eq_true_eq] at hab
                simp only [charsLe, if_neg hyz, decide_eq_true_eq] at hbc
                have hxz : x < z := lt_trans hab hbc
                have hxz' : x ≠ z := ne_of_lt hxz
                simp [charsLe, hxz', hxz]

theorem strLe_total (a b : String) : strLe a b = true ∨ strLe b a = true :=
  charsLe_total a.data b.data

theorem strLe_antisymm (a b : String) (hab : strLe a b = true)
    (hba : strLe b a = true) : a = b := by
  have h := charsLe_antisymm a.data b.data hab hba
  cases a; cases b; exact congrArg String.mk h

theorem strLe_trans (a b c : String) (hab : strLe a b = true)
    (hbc : strLe b c = true) : strLe a c = true :=
  charsLe_trans a.data b.data c.data hab hbc

theorem strLe_of_not_strLe (a b : String) (h : ¬ strLe a b = true) :
    strLe b a = true := by
  rcases strLe_total a b with h1 | h1
  · exact absurd h1 h
  · exact h1

theorem insertByKey_perm {α : Type} (key : α → String) (x : α) (l : List α) :
    (insertByKey key x l).Perm (x :: l) := by
  induction l with
  | nil => exact List.Perm.refl _
  | cons y ys ih =>
      by_cases h : strLe (key x) (key y) = true
      · simp [insertByKey, h]
      · simp only [insertByKey, if_neg h]
        exact (ih.cons y).trans (List.Perm.swap x y ys)

theorem sortByKey_perm {α : Type} (key : α → String) (l : List α) :
    (sortByKey key l).Perm l := by
  induction l with
  | nil => exact List.Perm.refl _
  | cons x xs ih =>
      exact (insertByKey_perm key x (sortByKey key xs)).trans (ih.cons x)

theorem mem_insertByKey {α : Type} (key : α → String) (x z : α) (l : List α)
    (h : z ∈ insertByKey key x l) : z = x ∨ z ∈ l := by
  have := (insertByKey_perm key x l).mem_iff.mp h
  simpa using this

theorem insertByKey_pairwise {α : Type} (key : α → String) (x : α) (l : List α)
    (h : l.Pairwise (fun a b => strLe (key a) (key b) = true)) :
    (insertByKey key x l).Pairwise (fun a b => strLe (key a) (key b) = true) := by
  induction l with
  | nil => simp [insertByKey]
  | cons y ys ih =>
      rcases List.pairwise_cons.mp h with ⟨hy, hys⟩
      by_cases hxy : strLe (key x) (key y) = true
      · simp only [insertByKey, if_pos hxy]
        refine List.pairwise_cons.mpr ⟨?_, h⟩
        intro z hz
        rcases List.mem_cons.mp hz with hz | hz
        · subst hz; exact hxy
        · exact strLe_trans _ _ _ hxy (hy z hz)
      · simp only [insertByKey, if_neg hxy]
        refine List.pairwise_cons.mpr ⟨?_, ih hys⟩
        intro z hz
        rcases mem_insertByKey key x z ys hz with hz | hz
        · subst hz; exact strLe_of_not_strLe _ _ hxy
        · exact hy z hz

theorem sortByKey_pairwise {α : Type} (key : α → String) (l : List α) :
    (sortByKey key l).Pairwise (fun a b => strLe (key a) (key b) = true) := by
  induction l with
  | nil => simp [sortByKey]
  | cons x xs ih => exact insertByKey_pairwise key x (sortByKey key xs) ih

theorem eq_of_perm_of_keys_eq {α : Type} (key : α → String) :
    ∀ (l₁ l₂ : List α), l₁.Perm l₂ → l₁.map key = l₂.map key →
      (l₁.map key).Nodup → l₁ = l₂ := by
  intro l₁
  induction l₁ with
  | nil =>
      intro l₂ hp _ _
      exact (List.Perm.nil_eq hp).symm ▸ rfl
  | cons a t₁ ih =>
      intro l₂ hp hk hnd
      cases l₂ with
      | nil => exact absurd hp.symm (by simp)
      | cons b t₂ =>
          simp only [List.map_cons, List.cons.injEq] at hk
          rcases hk with ⟨hab, ht⟩
          simp only [List.map_cons, List.nodup_cons] at hnd
          rcases hnd with ⟨hna, hnt⟩
          have hmem : a ∈ b :: t₂ := hp.mem_iff.mp (List.mem_cons_self a t₁)
          rcases List.mem_cons.mp hmem with hab2 | hat2
          · subst hab2
            have ht12 : t₁.Perm t₂ := hp.cons_inv
            rw [ih t₂ ht12 ht hnt]
          · exfalso
            apply hna
            rw [ht]
            exact List.mem_map_of_mem key hat2

theorem sortByKey_eq_of_perm {α : Type} (key : α → String) (l₁ l₂ : List α)
    (hp : l₁.Perm l₂) (hnd : (l₁.map key).Nodup) :
    sortByKey key l₁ = sortByKey key l₂ := by
  haveI : IsAntisymm String (fun a b => strLe a b = true) := ⟨strLe_antisymm⟩
  have hperm : (sortByKey key l₁).Perm (sortByKey key l₂) :=
    ((sortByKey_perm key l₁).trans hp).trans (sortByKey_perm key l₂).symm
  have hkeys : ((sortByKey key l₁).map key).Perm ((sortByKey key l₂).map key) :=
    hperm.map key
  have hs₁ : ((sortByKey key l₁).map key).Sorted (fun a b => strLe a b = true) :=
    List.pairwise_map.mpr (sortByKey_pairwise key l₁)
  have hs₂ : ((sortByKey key l₂).map key).Sorted (fun a b => strLe a b = true) :=
    List.pairwise_map.mpr (sortByKey_pairwise key l₂)
  have hkeq : (sortByKey key l₁).map key = (sortByKey key l₂).map key :=
    List.eq_of_perm_of_sorted hkeys hs₁ hs₂
  have hnd₁ : ((sortByKey key l₁).map key).Nodup :=
    (((sortByKey_perm key l₁).map key).nodup_iff).mpr hnd
  exact eq_of_perm_of_keys_eq key _ _ hperm hkeq hnd₁

theorem any_congr_mem {α : Type} (l : List α) (p q : α → Bool)
    (h : ∀ a ∈ l, p a = q a) : l.any p = l.any q := by
  induction l with
  | nil => rfl
  | cons a as ih =>
      simp only [List.any_cons]
      rw [h a (List.mem_cons_self a as), ih (fun b hb => h b (List.mem_cons.mpr (Or.inr hb)))]

theorem any_congr_perm {α : Type} (l₁ l₂ : List α) (p : α → Bool)
    (hp : l₁.Perm l₂) : l₁.any p = l₂.any p := by
  rw [Bool.eq_iff_iff]
  simp only [List.any_eq_true]
  constructor <;> rintro ⟨x, hx, hpx⟩
  · exact ⟨x, hp.mem_iff.mp hx, hpx⟩
  · exact ⟨x, hp.mem_iff.mpr hx, hpx⟩

theorem processJob_entryName (j : fileJob) :
    (processJob j).entryName = if j.meta.createOk then some j.relPath else none := by
  cases hc : j.meta.createOk <;> cases ho : j.meta.openOk <;>
    cases hy : j.meta.copyOk <;> simp [processJob, hc, ho, hy]

theorem processJob_failed (j : fileJob) : (processJob j).failed = jobFails j := by
  cases hc : j.meta.createOk <;> cases ho : j.meta.openOk <;>
    cases hy : j.meta.copyOk <;> simp [processJob, jobFails, hc, ho, hy]

theorem runPool_progressed (jobs : List fileJob) :
    (runPool jobs).progressed = jobs.length := by
  induction jobs with
  | nil => rfl
  | cons j rest ih => simp [runPool, ih]

theorem runPool_reported (jobs : List fileJob) :
    (runPool jobs).reportedFailures =
      (jobs.filter (fun j => jobFails j)).map (·.relPath) := by
  induction jobs with
  | nil => rfl
  | cons j rest ih =>
      by_cases hf : jobFails j = true <;>
        simp [runPool, processJob_failed, List.filter_cons, hf, ih]

theorem runPool_archiveNames (jobs : List fileJob) :
    (runPool jobs).archiveNames =
      (jobs.filter (fun j => j.meta.createOk)).map (·.relPath) := by
  induction jobs with
  | nil => rfl
  | cons j rest ih =>
      by_cases hc : j.meta.createOk = true <;>
        simp [runPool, processJob_entryName, List.filter_cons, hc, ih]

theorem firstErrPair_isSome (ps : List (String × Option String)) :
    (firstErrPair ps).isSome = ps.any (fun p => p.2.isSome) := by
  induction ps with
  | nil => rfl
  | cons p ps ih =>
      obtain ⟨n, e⟩ := p
      cases e <;> simp [firstErrPair, ih]

theorem walkErrZChildren_eq_map (cs : List FSNode) :
    walkErrZChildren cs = cs.map (fun c => (c.name, walkErrZ c)) := by
  induction cs with
  | nil => rfl
  | cons c cs ih => simp [walkErrZChildren, ih]

theorem zipFolderErrChildren_eq_map (cs : List FSNode) :
    zipFolderErrChildren cs = cs.map (fun c => (c.name, zipFolderErr c)) := by
  induction cs with
  | nil => rfl
  | cons c cs ih => simp [zipFolderErrChildren, ih]

theorem any_map_fn {α β : Type} (f : α → β) (l : List α) (p : β → Bool) :
    (l.map f).any p = l.any (fun a => p (f a)) := by
  induction l with
  | nil => rfl
  | cons a as ih => simp only [List.map_cons, List.any_cons, ih]

theorem hasBadForest_eq_any (cs : List FSNode) :
    hasBadForest cs = cs.any hasBad := by
  induction cs with
  | nil => rfl
  | cons c cs ih => simp [hasBadForest, ih]

theorem walkErrZ_eq_none : ∀ t, walkErrZ t = none := by
  apply FSNode.sizedInd (fun t => walkErrZ t = none)
  · intro n m; rfl
  · intro n cs r hcs
    have hnone : (sortErrPairs (walkErrZChildren cs)).any (fun p => p.2.isSome) = false := by
      rw [sortErrPairs, any_congr_perm _ _ _ (sortByKey_perm Prod.fst (walkErrZChildren cs))]
      rw [walkErrZChildren_eq_map, any_map_fn]
      apply List.any_eq_false.mpr
      intro c hc
      simp [hcs c hc]
    have hfp := firstErrPair_isSome (sortErrPairs (walkErrZChildren cs))
    rw [hnone] at hfp
    have hfp' : firstErrPair (sortErrPairs (walkErrZChildren cs)) = none :=
      Option.not_isSome_iff_eq_none.mp (by simp [hfp])
    cases r <;> simp [walkErrZ, hfp']

theorem zipFolderErr_isSome_eq_hasBad : ∀ t, (zipFolderErr t).isSome = hasBad t := by
  apply FSNode.sizedInd (fun t => (zipFolderErr t).isSome = hasBad t)
  · intro n m
    cases hs : m.statOk <;> cases hc : m.createOk <;> cases ho : m.openOk <;>
      cases hy : m.copyOk <;> simp [zipFolderErr, hasBad, hs, hc, ho, hy]
  · intro n cs r hcs
    have hchain : (firstErrPair (sortErrPairs (zipFolderErrChildren cs))).isSome =
        hasBadForest cs := by
      rw [firstErrPair_isSome, sortErrPairs,
        any_congr_perm _ _ _ (sortByKey_perm Prod.fst (zipFolderErrChildren cs)),
        zipFolderErrChildren_eq_map, any_map_fn, hasBadForest_eq_any]
      exact any_congr_mem cs _ _ (fun c hc => hcs c hc)
    cases r <;> simp [zipFolderErr, hasBad, hchain]

theorem walkChildren_eq_map (m : GlobMatch) (globs : List String)
    (cs : List FSNode) (pfx : String) :
    walkChildren m globs cs pfx =
      cs.map (fun c => (c.name, walkCollect m globs c pfx)) := by
  induction cs with
  | nil => rfl
  | cons c cs ih => simp [walkChildren, ih]

theorem mem_concatSnd (job : fileJob) (ps : List (String × List fileJob)) :
    job ∈ concatSnd ps ↔ ∃ pr ∈ ps, job ∈ pr.2 := by
  induction ps with
  | nil => simp [concatSnd]
  | cons p ps ih => simp [concatSnd, List.mem_append, ih]

theorem walkCollect_not_matched (m : GlobMatch) (globs : List String) :
    ∀ t, ∀ pfx job, job ∈ walkCollect m globs t pfx →
      ∀ p ∈ globs, (m p job.relPath).matched = false := by
  apply FSNode.sizedInd (fun t => ∀ pfx job, job ∈ walkCollect m globs t pfx →
    ∀ p ∈ globs, (m p job.relPath).matched = false)
  · intro n meta pfx job hj p hp
    by_cases hs : meta.statOk = true
    · simp only [walkCollect, if_pos hs] at hj
      by_cases hm : (globs.any fun q => (m q (childRel pfx n)).matched) = true
      · rw [if_pos hm] at hj
        simp at hj
      · rw [if_neg hm] at hj
        simp only [List.mem_singleton] at hj
        subst hj
        have hfalse : (globs.any fun q => (m q (childRel pfx n)).matched) = false :=
          Bool.eq_false_iff.mpr hm
        have := List.any_eq_false.mp hfalse p hp
        simpa using this
    · simp only [walkCollect, if_neg hs] at hj
      simp at hj
  · intro n cs r hcs pfx job hj p hp
    by_cases hr : r = true
    · simp only [walkCollect, if_pos hr] at hj
      rcases (mem_concatSnd job _).mp hj with ⟨pr, hpr, hjob⟩
      have hpr2 : pr ∈ walkChildren m globs cs (childRel pfx n) :=
        (sortByKey_perm Prod.fst _).mem_iff.mp hpr
      rw [walkChildren_eq_map] at hpr2
      rcases List.mem_map.mp hpr2 with ⟨c, hc, rfl⟩
      exact hcs c hc _ job hjob p hp
    · simp only [walkCollect, if_neg hr] at hj
      simp at hj

theorem enumerate_not_matched (m : GlobMatch) (globs : List String)
    (root : FSNode) (job : fileJob) (hj : job ∈ enumerate m globs root) :
    ∀ p ∈ globs, (m p job.relPath).matched = false := by
  intro p hp
  cases root with
  | file n meta => simp [enumerate] at hj
  | dir n cs r =>
      by_cases hr : r = true
      · simp only [enumerate, if_pos hr] at hj
        rcases (mem_concatSnd job _).mp hj with ⟨pr, hpr, hjob⟩
        have hpr2 : pr ∈ walkChildren m globs cs "" :=
          (sortByKey_perm Prod.fst _).mem_iff.mp hpr
        rw [walkChildren_eq_map] at hpr2
        rcases List.mem_map.mp hpr2 with ⟨c, hc, rfl⟩
        exact walkCollect_not_matched m globs c "" job hjob p hp
      · simp only [enumerate, if_neg hr] at hj
        simp at hj

theorem walkCollect_congr (m₁ m₂ : GlobMatch) (globs : List String)
    (hagree : ∀ p rel, (m₁ p rel).matched = (m₂ p rel).matched) :
    ∀ t pfx, walkCollect m₁ globs t pfx = walkCollect m₂ globs t pfx := by
  apply FSNode.sizedInd
    (fun t => ∀ pfx, walkCollect m₁ globs t pfx = walkCollect m₂ globs t pfx)
  · intro n meta pfx
    have hany : (globs.any fun q => (m₁ q (childRel pfx n)).matched) =
        (globs.any fun q => (m₂ q (childRel pfx n)).matched) :=
      any_congr_mem globs _ _ (fun q _ => hagree q (childRel pfx n))
    simp only [walkCollect, hany]
  · intro n cs r hcs pfx
    have hch : walkChildren m₁ globs cs (childRel pfx n) =
        walkChildren m₂ globs cs (childRel pfx n) := by
      rw [walkChildren_eq_map, walkChildren_eq_map]
      apply List.map_congr_left
      intro c hc
      rw [hcs c hc]
    simp only [walkCollect, hch]

theorem enumerate_congr (m₁ m₂ : GlobMatch) (globs : List String)
    (hagree : ∀ p rel, (m₁ p rel).matched = (m₂ p rel).matched) (root : FSNode) :
    enumerate m₁ globs root = enumerate m₂ globs root := by
  cases root with
  | file n meta => rfl
  | dir n cs r =>
      have hch : walkChildren m₁ globs cs "" = walkChildren m₂ globs cs "" := by
        rw [walkChildren_eq_map, walkChildren_eq_map]
        apply List.map_congr_left
        intro c hc
        rw [walkCollect_congr m₁ m₂ globs hagree c]
      simp only [enumerate, hch]

theorem FSNode.normalize_name (t : FSNode) : (normalize t).name = t.name := by
  cases t <;> rfl

theorem namesOf_eq_map (cs : List FSNode) : namesOf cs = cs.map FSNode.name := by
  induction cs with
  | nil => rfl
  | cons c cs ih => simp [namesOf, ih]

theorem normalizeForest_eq_map (cs : List FSNode) :
    normalizeForest cs = cs.map normalize := by
  induction cs with
  | nil => rfl
  | cons c cs ih => simp [normalizeForest, ih]

theorem nodupStr_iff (l : List String) : nodupStr l = true ↔ l.Nodup := by
  induction l with
  | nil => simp [nodupStr]
  | cons s ss ih =>
      simp only [nodupStr, Bool.and_eq_true, Bool.not_eq_true', List.nodup_cons]
      rw [ih]
      constructor
      · rintro ⟨hc, hn⟩
        refine ⟨?_, hn⟩
        intro hmem
        have := List.elem_iff.mpr hmem
        rw [List.contains] at hc
        rw [this] at hc
        exact Bool.true_eq_false.mp hc
      · rintro ⟨hc, hn⟩
        refine ⟨?_, hn⟩
        by_contra hne
        have : ss.contains s = true := by
          cases hcc : ss.contains s
          · exact absurd hcc hne
          · rfl
        exact hc (List.elem_iff.mp this)

theorem nodupForest_mem (cs : List FSNode) (c : FSNode)
    (h : nodupForest cs = true) (hc : c ∈ cs) : nodupNamesT c = true := by
  induction cs with
  | nil => simp at hc
  | cons d ds ih =>
      simp only [nodupForest, Bool.and_eq_true] at h
      rcases List.mem_cons.mp hc with hc | hc
      · subst hc; exact h.1
      · exact ih h.2 hc

theorem sortedChildren_eq (m : GlobMatch) (globs : List String)
    (cs : List FSNode) (pfx : String)
    (hnd : nodupStr (namesOf cs) = true)
    (hrec : ∀ c ∈ cs, ∀ pfx2,
      walkCollect m globs (normalize c) pfx2 = walkCollect m globs c pfx2) :
    sortPairs (walkChildren m globs (sortForest (normalizeForest cs)) pfx) =
      sortPairs (walkChildren m globs cs pfx) := by
  have hwn : walkChildren m globs (normalizeForest cs) pfx =
      walkChildren m globs cs pfx := by
    rw [walkChildren_eq_map, walkChildren_eq_map, normalizeForest_eq_map,
      List.map_map]
    apply List.map_congr_left
    intro c hc
    simp only [Function.comp_apply, FSNode.normalize_name, hrec c hc pfx]
  have hperm : (walkChildren m globs (sortForest (normalizeForest cs)) pfx).Perm
      (walkChildren m globs cs pfx) := by
    rw [walkChildren_eq_map, ← hwn, walkChildren_eq_map]
    exact (sortByKey_perm FSNode.name (normalizeForest cs)).map _
  have hkeys : (walkChildren m globs cs pfx).map Prod.fst = namesOf cs := by
    rw [walkChildren_eq_map, List.map_map, namesOf_eq_map]
    rfl
  have hnodup : ((walkChildren m globs (sortForest (normalizeForest cs)) pfx).map
      Prod.fst).Nodup := by
    apply (hperm.map Prod.fst).nodup_iff.mpr
    rw [hkeys]
    exact (nodupStr_iff _).mp hnd
  exact sortByKey_eq_of_perm Prod.fst _ _ hperm hnodup

theorem walkCollect_normalize (m : GlobMatch) (globs : List String) :
    ∀ t, nodupNamesT t = true → ∀ pfx,
      walkCollect m globs (normalize t) pfx = walkCollect m globs t pfx := by
  apply FSNode.sizedInd (fun t => nodupNamesT t = true → ∀ pfx,
    walkCollect m globs (normalize t) pfx = walkCollect m globs t pfx)
  · intro n meta _ pfx
    rfl
  · intro n cs r hcs hnd pfx
    simp only [nodupNamesT, Bool.and_eq_true] at hnd
    have hrec : ∀ c ∈ cs, ∀ pfx2,
        walkCollect m globs (normalize c) pfx2 = walkCollect m globs c pfx2 :=
      fun c hc => hcs c hc (nodupForest_mem cs c hnd.2 hc)
    show walkCollect m globs (.dir n (sortForest (normalizeForest cs)) r) pfx =
      walkCollect m globs (.dir n cs r) pfx
    simp only [walkCollect, sortPairs]
    rw [show sortByKey (α := String × List fileJob) Prod.fst = sortPairs from rfl,
      sortedChildren_eq m globs cs (childRel pfx n) hnd.1 hrec]

theorem enumerate_normalize (m : GlobMatch) (globs : List String) (root : FSNode)
    (h : nodupNamesT root = true) :
    enumerate m globs (normalize root) = enumerate m globs root := by
  cases root with
  | file n meta => rfl
  | dir n cs r =>
      simp only [nodupNamesT, Bool.and_eq_true] at h
      have hrec : ∀ c ∈ cs, ∀ pfx2,
          walkCollect m globs (normalize c) pfx2 = walkCollect m globs c pfx2 :=
        fun c hc => walkCollect_normalize m globs c (nodupForest_mem cs c h.2 hc)
      show enumerate m globs (.dir n (sortForest (normalizeForest cs)) r) =
        enumerate m globs (.dir n cs r)
      simp only [enumerate, sortPairs]
      rw [show sortByKey (α := String × List fileJob) Prod.fst = sortPairs from rfl,
        sortedChildren_eq m globs cs "" h.1 hrec]

/-! ### Claim theorems -/

/-- C1: the claim states that an entry's header creation and payload copy are
one critical section, never interleaved with another entry's writes. In the
code the mutex covers only `zipWriter.CreateHeader`; `io.Copy` of the payload
runs after the mutex is released, so the schedule in which worker B creates
entry 1's header between entry 0's header creation and entry 0's payload copy
is a reachable interleaving of the two workers' program orders, and it is not
serialized per entry. -/
theorem C1_payload_outside_lock :
    isShuffle (workerSeq [0]) (workerSeq [1])
      [.header 0, .header 1, .payload 0, .payload 1] = true ∧
    serializedPerEntry [.header 0, .header 1, .payload 0, .payload 1] = false := by
  decide

/-- C2 counterexample: `a.txt` fails with a read error (`os.Open` fails after
its header was created), the failure is reported, yet an entry named `a.txt`
is present in the finished archive — contradicting the claim that a failed
file does not appear in the output archive. -/
theorem C2_counterexample :
    jobFails { relPath := "a.txt", meta := badOpenMeta } = true ∧
    "a.txt" ∈ (runPool (enumerate noMatch [] c3tree)).archiveNames ∧
    (runPool (enumerate noMatch [] c3tree)).reportedFailures = ["a.txt"] ∧
    (runPool (enumerate noMatch [] c3tree)).progressed = 2 := by
  decide

/-- C2 amended: every failing descriptor is reported and the pool processes
every dispatched descriptor, but a failing file is absent from the finished
archive only when its header creation itself failed; a file that fails at
open or copy after `CreateHeader` succeeded still contributes an entry (with
missing payload) under its name. -/
theorem C2_amended (jobs : List fileJob) :
    (runPool jobs).progressed = jobs.length ∧
    (runPool jobs).reportedFailures =
      (jobs.filter (fun j => jobFails j)).map (·.relPath) ∧
    (runPool jobs).archiveNames =
      (jobs.filter (fun j => j.meta.createOk)).map (·.relPath) :=
  ⟨runPool_progressed jobs, runPool_reported jobs, runPool_archiveNames jobs⟩

/-- C3 counterexample: a build in which `a.txt` fails returns nil — the
caller-visible result of `zipFileOrDir` is an error value only, and it is
`none` here, surfacing neither the failed-file list nor an entry count,
contradicting the claim. -/
theorem C3_counterexample :
    (zipDirectory true noMatch [] c3tree).1.retErr = none ∧
    (zipDirectory true noMatch [] c3tree).2.reportedFailures = ["a.txt"] ∧
    (zipDirectory true noMatch [] c3tree).2.archiveNames = ["a.txt", "b.txt"] := by
  decide

/-- C3 amended: per-file failures are only printed to stderr as they occur;
once the output file is created, directory-mode `zipFileOrDir` always returns
nil and finalizes the archive, so the caller receives no failed-file list and
no entry count. -/
theorem C3_amended (m : GlobMatch) (globs : List String) (root : FSNode) :
    (zipDirectory true m globs root).1.retErr = none ∧
    (zipDirectory true m globs root).1.finalized = true ∧
    (zipDirectory true m globs root).2.reportedFailures =
      ((enumerate m globs root).filter (fun j => jobFails j)).map (·.relPath) := by
  have hw := walkErrZ_eq_none root
  simp only [zipDirectory, hw, Bool.not_true]
  exact ⟨rfl, rfl, runPool_reported _⟩

/-- C4: the claim states an aborted build never finalizes the archive. In the
code `defer zipWriter.Close()` runs on every return path after the output
file is created, so a single-file build that aborts on a read error still
writes the central directory; and in directory mode the walk callback
swallows every enumeration error, so the build never aborts on one — here a
tree with an unreadable directory yields a nil walk error and a finalized,
"successful" build. -/
theorem C4_finalized_despite_abort :
    (zipSingleFile true badOpenMeta).retErr = some "open failed" ∧
    (zipSingleFile true badOpenMeta).finalized = true ∧
    walkErrZ c6tree = none ∧
    (zipDirectory true noMatch [] c6tree).1.finalized = true ∧
    (zipDirectory true noMatch [] c6tree).1.retErr = none := by
  decide

/-- C5 counterexample: the dispatch order for a tree holding `foo/x` and
`foo-bar` is the walk order `[foo/x, foo-bar]`, which is not ascending
lexicographic order of relative paths (`"foo-bar" < "foo/x"` since the hyphen
sorts before the slash), contradicting the claim that descriptors are
dispatched sorted by relativePath. -/
theorem C5_counterexample :
    (enumerate noMatch [] c5tree).map (·.relPath) = ["foo/x", "foo-bar"] ∧
    sortedByRel ((enumerate noMatch [] c5tree).map (·.relPath)) = false := by
  decide

/-- C5 amended: descriptors are dispatched in `filepath.Walk` order —
depth-first, each directory's children in ascending name order — which is
deterministic and independent of the filesystem's directory iteration order
(two trees equal up to the order of children lists produce the same dispatch
list), but is not globally sorted by relativePath. -/
theorem C5_amended (m : GlobMatch) (globs : List String) (t₁ t₂ : FSNode)
    (h₁ : nodupNamesT t₁ = true) (h₂ : nodupNamesT t₂ = true)
    (heq : normalize t₁ = normalize t₂) :
    enumerate m globs t₁ = enumerate m globs t₂ := by
  rw [← enumerate_normalize m globs t₁ h₁, heq, enumerate_normalize m globs t₂ h₂]

/-- C5 witness: two trees listing the same children in different on-disk
orders have equal normalizations and hence equal dispatch lists. -/
theorem C5_witness :
    nodupNamesT c5treeA = true ∧ nodupNamesT c5treeB = true ∧
    normalize c5treeA = normalize c5treeB ∧
    enumerate noMatch [] c5treeA = enumerate noMatch [] c5treeB :=
  ⟨by decide, by decide, by rfl,
    C5_amended noMatch [] c5treeA c5treeB (by decide) (by decide) (by rfl)⟩

/-- C6 counterexample: a directory under the root cannot be read, yet
enumeration yields no error and an empty descriptor list, and the build
returns nil — the unreadable directory and the file inside it are silently
skipped, contradicting the claim that enumeration fails with an enumeration
error. -/
theorem C6_counterexample :
    walkErrZ c6tree = none ∧
    enumerate noMatch [] c6tree = [] ∧
    (zipDirectory true noMatch [] c6tree).1.retErr = none := by
  decide

/-- C6 amended: in the concurrent variant (`zipFileOrDir`) the walk callback
swallows every traversal error, so enumeration never fails and unreadable
directories and files are skipped silently (only a missing root aborts,
earlier, via the `os.Stat` check in main); in the sequential variant
(`zipFolder` in src/main.go) the walk returns an error exactly when some node
of the tree is unreadable or unzippable. -/
theorem C6_amended (t : FSNode) :
    walkErrZ t = none ∧ (zipFolderErr t).isSome = hasBad t :=
  ⟨walkErrZ_eq_none t, zipFolderErr_isSome_eq_hasBad t⟩

/-- C7 counterexample: a configuration with a well-formed source path, the
malformed exclusion pattern `[`, and worker count 0 does not abort — and with
a matcher that errs on every call (the behavior of `PathMatch` on a malformed
pattern) enumeration proceeds normally, silently discarding the error instead
of reporting it at configuration time. This contradicts the claim that a
malformed pattern or an invalid worker count aborts the build before I/O. -/
theorem C7_counterexample :
    configAborts c7config = false ∧
    (enumerate erroringMatch c7config.patterns c7tree).map (·.relPath) = ["a.txt"] := by
  decide

/-- C7 amended: the only pre-I/O validation is of the source path (-src empty
or `os.Stat` failure); exclusion patterns and the worker count are never
validated, and the error component of every `PathMatch` call is discarded, so
enumeration depends only on the match flags a matcher returns, never on its
errors. -/
theorem C7_amended (c : Config) (m₁ m₂ : GlobMatch) (globs : List String)
    (root : FSNode)
    (hagree : ∀ p rel, (m₁ p rel).matched = (m₂ p rel).matched) :
    configAborts c = (c.srcEmpty || !c.statOk) ∧
    enumerate m₁ globs root = enumerate m₂ globs root :=
  ⟨rfl, enumerate_congr m₁ m₂ globs hagree root⟩

/-- C7 witness: a matcher that never errs and one that errs on every call
agree on match flags, so enumeration cannot tell them apart. -/
theorem C7_witness :
    configAborts c7config = (c7config.srcEmpty || !c7config.statOk) ∧
    enumerate noMatch ["["] c7tree = enumerate erroringMatch ["["] c7tree :=
  C7_amended c7config noMatch erroringMatch ["["] c7tree (fun _ _ => rfl)

/-- C8: every entry header, in worker (directory) mode and in single-file
mode, carries the fixed sentinel `time.Time{}` as its modified time, and the
header does not depend on the file's real filesystem timestamp at all. -/
theorem C8_fixed_timestamp (job : fileJob) (rel : String) (meta : FileMeta)
    (level : Nat) (t : Int) :
    (workerEntryHeader job level).modified = zeroTime ∧
    (addFileHeader rel meta level).modified = zeroTime ∧
    workerEntryHeader { job with meta := { job.meta with modTime := t } } level =
      workerEntryHeader job level ∧
    addFileHeader rel { meta with modTime := t } level = addFileHeader rel meta level :=
  ⟨rfl, rfl, rfl, rfl⟩

/-- C9: every entry name of the finished archive comes from a descriptor that
survived the exclusion filter, so no entry name matches any exclusion
pattern; matching was evaluated on the slash-normalized relative path, which
is exactly the entry's name. -/
theorem C9_no_excluded_entries (m : GlobMatch) (globs : List String)
    (root : FSNode) (entryName : String)
    (h : entryName ∈ (runPool (enumerate m globs root)).archiveNames) :
    ∀ p ∈ globs, (m p entryName).matched = false := by
  intro p hp
  rw [runPool_archiveNames] at h
  rcases List.mem_map.mp h with ⟨job, hjob, rfl⟩
  exact enumerate_not_matched m globs root job (List.mem_of_mem_filter hjob) p hp

/-- C9 witness: with the pattern `b.log` excluded, the archive holds `a.txt`,
whose name matches no pattern. -/
theorem C9_witness :
    "a.txt" ∈ (runPool (enumerate eqMatch ["b.log"] c9tree)).archiveNames ∧
    ∀ p ∈ ["b.log"], (eqMatch p "a.txt").matched = false :=
  ⟨by decide, C9_no_excluded_entries eqMatch ["b.log"] c9tree "a.txt" (by decide)⟩

/-- C10: the compression method is a function of the -level flag alone: Store
exactly when the lowered flag equals "store", Deflate otherwise — so
"fastest" and "best" behave identically to "default" — and every entry
header, in both modes, carries exactly the selected method. -/
theorem C10_compression_selection (s : String) (job : fileJob) (rel : String)
    (meta : FileMeta) :
    (chooseMethod s = storeMethod ↔ goToLower s = "store") ∧
    chooseMethod "store" = storeMethod ∧
    chooseMethod "STORE" = storeMethod ∧
    chooseMethod "fastest" = chooseMethod "default" ∧
    chooseMethod "best" = chooseMethod "default" ∧
    chooseMethod "default" = deflateMethod ∧
    (workerEntryHeader job (chooseMethod s)).method = chooseMethod s ∧
    (addFileHeader rel meta (chooseMethod s)).method = chooseMethod s := by
  refine ⟨?_, by decide, by decide, by decide, by decide, by decide, rfl, rfl⟩
  constructor
  · intro h
    by_cases hs : goToLower s = "store"
    · exact hs
    · rw [chooseMethod, if_neg hs] at h
      exact absurd h (by decide)
  · intro h
    rw [chooseMethod, if_pos h]

end Zipper
